import Mathlib

/-!
Verification development for the Broadway explorer pipeline
(src/discussion_app.py).  The script is a linear pandas pipeline:
clean/coerce columns, filter by date, filter the display table by show,
group by show and sum, rank top/bottom with a zero-exclusion rule for
bottom rankings, and format currency strings.  We embed each stage as an
executable Lean function over typed records and prove the spec claims
about them.  Monetary and count values are modelled as exact rationals
(pandas holds them as floats; all claims under study are about exact
comparisons and sums on small literals where the two agree).
-/

namespace Broadway

/-- Calendar date, compared lexicographically (year, month, day), as
pandas compares `datetime.date` values. -/
structure Date where
  year : Nat
  month : Nat
  day : Nat
deriving DecidableEq, Repr

/-- Boolean lexicographic order on dates, the order used by the
`.dt.date >= start_date` / `<= end_date` comparisons in the script. -/
def Date.leb (a b : Date) : Bool :=
  decide (a.year < b.year) ||
    (a.year == b.year &&
      (decide (a.month < b.month) ||
        (a.month == b.month && decide (a.day ≤ b.day))))

/-- A `pd.Timestamp`: a calendar date plus a time-of-day component
(seconds within the day).  The date filter in the script compares only
the `.date` part, ignoring `tod`. -/
structure Timestamp where
  date : Date
  tod : Nat
deriving DecidableEq, Repr

/-- One raw CSV row restricted to the four columns the script touches:
WEEK DATE, SHOW, THIS WEEK GROSS, PERFORMANCES.  The SHOW cell may be
missing (pandas NaN), which we model as `none`; the other three arrive
as text. -/
structure RawRecord where
  dateText : String
  showName : Option String
  grossText : String
  perfText : String
deriving DecidableEq, Repr

/-- A cleaned row: the date parsed to a `Timestamp`, gross and
performances coerced to numbers (`0` on coercion failure), the show
label left untouched (possibly still missing). -/
structure CleanRecord where
  date : Timestamp
  showName : Option String
  weekly_gross : Rat
  performances : Rat
deriving DecidableEq, Repr

/-- One row of the `agg` dataframe: per-show sums within the selected
window. -/
structure Aggregate where
  showName : String
  total_performances : Rat
  total_gross : Rat
deriving DecidableEq, Repr

/-- The ranking metric chosen in the UI selectbox. -/
inductive Metric where
  | performances
  | gross
deriving DecidableEq, Repr

/-- The ranking direction chosen in the UI radio buttons. -/
inductive Direction where
  | top
  | bottom
deriving DecidableEq, Repr

/-- Currency display scale used by the three formatted gross columns. -/
inductive Scale where
  | ones
  | thousands
  | millions
deriving DecidableEq, Repr

/-- The column selected by the metric (`metric_col` in the script). -/
def metricVal : Metric → Aggregate → Rat
  | Metric.performances, a => a.total_performances
  | Metric.gross, a => a.total_gross

/-! ### Text parsing

`pd.to_datetime(errors="coerce")` and `pd.to_numeric(errors="coerce")`
are library coercions; we embed them as executable parsers on the
character list of the cell.  The date parser accepts ISO `YYYY-MM-DD`
dates (the CSV's format); the number parser accepts optionally signed
decimal literals.  All claims about cleaning depend only on the
drop-on-failure / default-to-zero plumbing around these parsers, not on
the exact language they accept. -/

/-- Split a character list on a separator character. -/
def splitOnChar (sep : Char) : List Char → List (List Char)
  | [] => [[]]
  | c :: rest =>
    let r := splitOnChar sep rest
    if c = sep then [] :: r
    else
      match r with
      | [] => [[c]]
      | g :: gs => (c :: g) :: gs

/-- Value of a digit string as a natural number. -/
def digitsNat (cs : List Char) : Nat :=
  cs.foldl (fun n c => 10 * n + (c.toNat - 48)) 0

/-- Parse an unsigned decimal literal (digits with an optional single
decimal point) to an exact rational. -/
def parseUnsigned (cs : List Char) : Option Rat :=
  match splitOnChar '.' cs with
  | [ip] =>
    if ip ≠ [] ∧ ip.all Char.isDigit then some (digitsNat ip : Rat) else none
  | [ip, fp] =>
    if (ip ≠ [] ∨ fp ≠ []) ∧ ip.all Char.isDigit ∧ fp.all Char.isDigit then
      some ((digitsNat ip : Rat) + (digitsNat fp : Rat) / (10 : Rat) ^ fp.length)
    else none
  | _ => none

/-- Embedding of `pd.to_numeric(errors="coerce")` on a text cell:
`none` models NaN (coercion failure). -/
def parseNumber (s : String) : Option Rat :=
  match s.toList with
  | '-' :: rest => (parseUnsigned rest).map (fun q => -q)
  | '+' :: rest => parseUnsigned rest
  | cs => parseUnsigned cs

/-- Embedding of `.str.replace(r"[$,]", "", regex=True)`: delete every
dollar sign and comma from the text. -/
def stripCurrency (s : String) : String :=
  String.mk (s.toList.filter (fun c => !(c = '$' || c = ',')))

/-- Embedding of `pd.to_datetime(errors="coerce")` on a text cell,
restricted to ISO `YYYY-MM-DD` dates: `none` models NaT (coercion
failure). -/
def parseDate (s : String) : Option Timestamp :=
  match splitOnChar '-' s.toList with
  | [ys, ms, ds] =>
    if ys.length = 4 ∧ ms.length = 2 ∧ ds.length = 2 ∧
        (ys ++ ms ++ ds).all Char.isDigit then
      let m := digitsNat ms
      let d := digitsNat ds
      if 1 ≤ m ∧ m ≤ 12 ∧ 1 ≤ d ∧ d ≤ 31 then
        some ⟨⟨digitsNat ys, m, d⟩, 0⟩
      else none
    else none
  | _ => none

/-! ### Cleaning (script lines 46-56) -/

/-- Clean a single row: drop it (`none`) when the date fails to parse
(`dropna(subset=[date_col])`); otherwise coerce gross (after stripping
`$` and `,`) and performances, defaulting each to `0` on failure
(`fillna(0)`). -/
def cleanRecord (r : RawRecord) : Option CleanRecord :=
  match parseDate r.dateText with
  | none => none
  | some ts =>
    some
      { date := ts
        showName := r.showName
        weekly_gross := (parseNumber (stripCurrency r.grossText)).getD 0
        performances := (parseNumber r.perfText).getD 0 }

/-- The whole cleaning stage applied to the loaded table. -/
def clean (rs : List RawRecord) : List CleanRecord :=
  rs.filterMap cleanRecord

/-! ### Filters (script lines 71-90) -/

/-- The timeframe filter `filtered_time`: keep rows whose calendar date
(time-of-day discarded by `.dt.date`) lies in `[s, e]`. -/
def filter_by_date (rs : List CleanRecord) (s e : Date) : List CleanRecord :=
  rs.filter (fun r => Date.leb s r.date.date && Date.leb r.date.date e)

/-- The sentinel option offered by the show selectbox. -/
def allShowsSentinel : String := "All shows"

/-- The show filter `filtered_table`: identity at the sentinel,
otherwise exact equality on the SHOW column.  A missing show never
equals a selected name. -/
def filter_by_show (rs : List CleanRecord) (sel : String) : List CleanRecord :=
  if sel = allShowsSentinel then rs
  else rs.filter (fun r => r.showName == some sel)

/-! ### Stable key sort

`DataFrame.sort_values` on a single column computes an argsort of the
key column and, for descending sorts, reverses both the input and the
resulting order (pandas `nargsort`).  We embed the argsort as a stable
insertion sort on the key; none of the settled claims depends on the
order of equal keys. -/

/-- Insert an element into a key-sorted list, before the first element
with a key not smaller than its own. -/
def insertByKey {α κ : Type} [LinearOrder κ] (key : α → κ) (a : α) :
    List α → List α
  | [] => [a]
  | b :: l => if key a ≤ key b then a :: b :: l else b :: insertByKey key a l

/-- Stable insertion sort by a key, ascending. -/
def sortByKey {α κ : Type} [LinearOrder κ] (key : α → κ) : List α → List α
  | [] => []
  | a :: l => insertByKey key a (sortByKey key l)

/-- Embedding of `DataFrame.sort_values(by=key, ascending=asc)` on a
single NaN-free column: ascending sorts directly; descending reverses
the input, sorts ascending, and reverses the result (pandas
`nargsort`). -/
def sortValues {α κ : Type} [LinearOrder κ] (key : α → κ) (ascending : Bool)
    (l : List α) : List α :=
  if ascending then sortByKey key l
  else (sortByKey key l.reverse).reverse

/-! ### Aggregation (script lines 128-135)

`groupby(show_col, as_index=False).agg(sum)` drops rows whose group key
is missing (NaN), keys the result by the distinct show names present,
and emits the groups sorted ascending by key (`groupby` sorts by
default). -/

/-- The distinct show names present in the window, sorted ascending:
the group keys of the `groupby`. -/
def showKeys (rs : List CleanRecord) : List String :=
  sortByKey (fun s => s) ((rs.filterMap CleanRecord.showName).dedup)

/-- Sum of a projected value over the rows belonging to one show. -/
def groupSum (rs : List CleanRecord) (f : CleanRecord → Rat) (s : String) : Rat :=
  ((rs.filter (fun r => r.showName == some s)).map f).sum

/-- The `agg` dataframe: one row per distinct show, with summed
performances and gross. -/
def aggregate (rs : List CleanRecord) : List Aggregate :=
  (showKeys rs).map (fun s =>
    { showName := s
      total_performances := groupSum rs CleanRecord.performances s
      total_gross := groupSum rs CleanRecord.weekly_gross s })

/-! ### Ranking (script lines 144-158) -/

/-- The `rank_source` dataframe: for Bottom rankings, keep only rows
whose selected metric is strictly positive (`rank_source[... > 0]`);
for Top rankings, keep everything. -/
def rank_source (aggs : List Aggregate) (m : Metric) : Direction → List Aggregate
  | Direction.bottom => aggs.filter (fun a => decide (0 < metricVal m a))
  | Direction.top => aggs

/-- The `ranked` dataframe before `head`: `rank_source` sorted by the
metric, ascending exactly when the direction is Bottom. -/
def rankSorted (aggs : List Aggregate) (m : Metric) (dir : Direction) :
    List Aggregate :=
  sortValues (metricVal m) (dir == Direction.bottom) (rank_source aggs m dir)

/-- The `ranked` dataframe: sort then `head(top_n)`. -/
def rank (aggs : List Aggregate) (m : Metric) (dir : Direction)
    (limit : Nat) : List Aggregate :=
  (rankSorted aggs m dir).take limit

/-! ### The whole per-interaction pipeline -/

/-- Outputs of one interaction: the display table and the two ranking
artifacts. -/
structure PipelineOutput where
  displayTable : List CleanRecord
  aggregates : List Aggregate
  ranked : List Aggregate
deriving DecidableEq, Repr

/-- One full run of the script body for a choice of user parameters:
the show filter feeds only the display table, the ranking branch is
computed from the date-filtered rows alone. -/
def pipeline (rs : List CleanRecord) (s e : Date) (sel : String)
    (m : Metric) (dir : Direction) (limit : Nat) : PipelineOutput :=
  let filteredTime := filter_by_date rs s e
  { displayTable := filter_by_show filteredTime sel
    aggregates := aggregate filteredTime
    ranked := rank (aggregate filteredTime) m dir limit }

/-! ### Currency formatting (script lines 191-194) -/

/-- Scale divisor: `1`, `1_000`, or `1_000_000`. -/
def Scale.divisor : Scale → Rat
  | Scale.ones => 1
  | Scale.thousands => 1000
  | Scale.millions => 1000000

/-- Scale letter appended after the number. -/
def Scale.letter : Scale → String
  | Scale.ones => ""
  | Scale.thousands => "K"
  | Scale.millions => "M"

/-- Round a rational to the nearest integer, ties to even: the rounding
used by Python `format(x, ".2f")`. -/
def roundHalfEven (q : Rat) : Int :=
  let f := q.floor
  let r := q - (f : Rat)
  if r < 1 / 2 then f
  else if 1 / 2 < r then f + 1
  else if f % 2 = 0 then f else f + 1

/-- Insert a comma after every third character, counting from the
right; input arrives reversed. -/
def groupRev : Nat → List Char → List Char
  | _, [] => []
  | 0, c :: cs => ',' :: c :: groupRev 2 cs
  | n + 1, c :: cs => c :: groupRev n cs

/-- Thousands separators for a digit string. -/
def withSeps (ds : List Char) : List Char :=
  (groupRev 3 ds.reverse).reverse

/-- Embedding of the Python format spec `,.2f`: sign, integer part with
thousands separators, and exactly two rounded decimal digits. -/
def formatFixed2 (q : Rat) : String :=
  let n := roundHalfEven (q * 100)
  let sign := if q < 0 then "-" else ""
  let m := n.natAbs
  sign ++ String.mk (withSeps (toString (m / 100)).toList) ++ "." ++
    (if m % 100 < 10 then "0" else "") ++ toString (m % 100)

/-- Embedding of the three formatted gross columns
`f"US$\x7bx:,.2f\x7d"` plus scale suffix: divide by the scale divisor,
format with two decimals and separators, prefix `US$`, append the scale
letter. -/
def format_currency (x : Rat) (sc : Scale) : String :=
  "US$" ++ formatFixed2 (x / sc.divisor) ++ sc.letter

/-! ## Lemmas about the sort embedding -/

theorem insertByKey_perm {α κ : Type} [LinearOrder κ] (key : α → κ) (a : α) :
    ∀ l : List α, List.Perm (insertByKey key a l) (a :: l)
  | [] => List.Perm.refl _
  | b :: t => by
    by_cases hab : key a ≤ key b
    · simp [insertByKey, hab]
    · simp only [insertByKey, if_neg hab]
      exact ((insertByKey_perm key a t).cons b).trans (List.Perm.swap a b t)

theorem sortByKey_perm {α κ : Type} [LinearOrder κ] (key : α → κ) :
    ∀ l : List α, List.Perm (sortByKey key l) l
  | [] => List.Perm.refl _
  | a :: t =>
    (insertByKey_perm key a (sortByKey key t)).trans ((sortByKey_perm key t).cons a)

theorem sortValues_perm {α κ : Type} [LinearOrder κ] (key : α → κ)
    (ascending : Bool) (l : List α) :
    List.Perm (sortValues key ascending l) l := by
  unfold sortValues
  split
  · exact sortByKey_perm key l
  · exact ((sortByKey key l.reverse).reverse_perm.trans
      (sortByKey_perm key l.reverse)).trans l.reverse_perm

theorem pairwise_insertByKey {α κ : Type} [LinearOrder κ] (key : α → κ) (a : α)
    (l : List α) (h : l.Pairwise (fun x y => key x ≤ key y)) :
    (insertByKey key a l).Pairwise (fun x y => key x ≤ key y) := by
  induction l with
  | nil => simp [insertByKey]
  | cons b t ih =>
    rcases List.pairwise_cons.mp h with ⟨hb, ht⟩
    by_cases hab : key a ≤ key b
    · simp only [insertByKey, if_pos hab]
      refine List.pairwise_cons.mpr ⟨?_, h⟩
      intro x hx
      rcases List.mem_cons.mp hx with rfl | hx
      · exact hab
      · exact le_trans hab (hb x hx)
    · simp only [insertByKey, if_neg hab]
      refine List.pairwise_cons.mpr ⟨?_, ih ht⟩
      intro x hx
      rcases List.mem_cons.mp ((insertByKey_perm key a t).mem_iff.mp hx) with rfl | hx
      · exact le_of_not_le hab
      · exact hb x hx

theorem pairwise_sortByKey {α κ : Type} [LinearOrder κ] (key : α → κ) :
    ∀ l : List α, (sortByKey key l).Pairwise (fun x y => key x ≤ key y)
  | [] => List.Pairwise.nil
  | a :: t => pairwise_insertByKey key a _ (pairwise_sortByKey key t)

/-- On inputs whose keys are pairwise distinct, the sorted order is
unique, so sorting is invariant under permutation of the input. -/
theorem sortByKey_eq_of_perm {α κ : Type} [LinearOrder κ] (key : α → κ)
    {l₁ l₂ : List α} (hp : List.Perm l₁ l₂) (hnd : (l₁.map key).Nodup) :
    sortByKey key l₁ = sortByKey key l₂ := by
  haveI : IsAntisymm α (fun x y => key x < key y) :=
    ⟨fun a b h1 h2 => absurd (lt_trans h1 h2) (lt_irrefl _)⟩
  have hperm : List.Perm (sortByKey key l₁) (sortByKey key l₂) :=
    (sortByKey_perm key l₁).trans (hp.trans (sortByKey_perm key l₂).symm)
  have strict : ∀ l : List α, (l.map key).Nodup →
      (sortByKey key l).Pairwise (fun x y => key x < key y) := by
    intro l hl
    have h1 : (sortByKey key l).Pairwise (fun x y => key x ≤ key y) :=
      pairwise_sortByKey key l
    have h2 : ((sortByKey key l).map key).Nodup :=
      ((sortByKey_perm key l).map key).symm.nodup hl
    exact (h1.and (List.pairwise_map.mp h2)).imp fun h => lt_of_le_of_ne h.1 h.2
  exact List.eq_of_perm_of_sorted hperm (strict l₁ hnd)
    (strict l₂ ((hp.map key).nodup hnd))

/-! ## Lemmas about aggregation sums -/

/-- Does the record's show name appear in the given key list? -/
def hasShowIn (keys : List String) (r : CleanRecord) : Bool :=
  match r.showName with
  | some s => decide (s ∈ keys)
  | none => false

theorem sum_filter_or {α : Type} (f : α → Rat) (p q : α → Bool)
    (hdisj : ∀ a, ¬(p a = true ∧ q a = true)) :
    ∀ l : List α, ((l.filter (fun a => p a || q a)).map f).sum
      = ((l.filter p).map f).sum + ((l.filter q).map f).sum := by
  intro l
  induction l with
  | nil => simp
  | cons a t ih =>
    by_cases hp : p a = true
    · have hq : q a = false := Bool.eq_false_iff.mpr (fun h => hdisj a ⟨hp, h⟩)
      simp only [List.filter_cons, hp, hq, Bool.true_or, if_pos rfl]
      simp [ih]
      ring
    · have hp' : p a = false := Bool.eq_false_iff.mpr hp
      by_cases hq : q a = true
      · simp only [List.filter_cons, hp', hq, Bool.false_or, if_pos rfl]
        simp [ih]
        ring
      · have hq' : q a = false := Bool.eq_false_iff.mpr hq
        simp only [List.filter_cons, hp', hq', Bool.false_or]
        simp [ih]

theorem groupSum_keys (f : CleanRecord → Rat) (rs : List CleanRecord) :
    ∀ keys : List String, keys.Nodup →
      (keys.map (groupSum rs f)).sum
        = ((rs.filter (hasShowIn keys)).map f).sum := by
  intro keys
  induction keys with
  | nil =>
    intro _
    have hfalse : rs.filter (hasShowIn []) = [] :=
      List.filter_eq_nil_iff.mpr
        (by intro r _; cases h : r.showName <;> simp [hasShowIn, h])
    simp [hfalse]
  | cons k ks ih =>
    intro hnd
    rcases List.nodup_cons.mp hnd with ⟨hk, hnd'⟩
    have hfun : ∀ r ∈ rs, hasShowIn (k :: ks) r
        = ((r.showName == some k) || hasShowIn ks r) := by
      intro r _
      cases h : r.showName with
      | none => simp [hasShowIn, h]
      | some s =>
        simp only [hasShowIn, h, List.mem_cons, Option.some.injEq]
        by_cases hsk : s = k <;> simp [hsk]
    have hdisj : ∀ r, ¬((r.showName == some k) = true ∧ hasShowIn ks r = true) := by
      intro r ⟨h1, h2⟩
      have hr : r.showName = some k := by
        cases h : r.showName with
        | none => simp [h] at h1
        | some s =>
          simp only [h, Option.some.injEq, beq_iff_eq] at h1
          exact congrArg some h1
      have h2' : decide (k ∈ ks) = true := by
        simpa only [hasShowIn, hr] using h2
      exact hk (of_decide_eq_true h2')
    calc ((k :: ks).map (groupSum rs f)).sum
        = groupSum rs f k + (ks.map (groupSum rs f)).sum := by simp
      _ = ((rs.filter (fun r => r.showName == some k)).map f).sum
            + ((rs.filter (hasShowIn ks)).map f).sum := by rw [groupSum, ih hnd']
      _ = ((rs.filter (fun r => (r.showName == some k) || hasShowIn ks r)).map f).sum := by
            rw [sum_filter_or f _ _ hdisj rs]
      _ = ((rs.filter (hasShowIn (k :: ks))).map f).sum := by
            rw [List.filter_congr (fun r hr => (hfun r hr).symm)]

theorem mem_showKeys {rs : List CleanRecord} {s : String} :
    s ∈ showKeys rs ↔ some s ∈ rs.map CleanRecord.showName := by
  rw [showKeys]
  rw [(sortByKey_perm (fun s => s) _).mem_iff, List.mem_dedup]
  constructor
  · intro h
    rcases List.mem_filterMap.mp h with ⟨r, hr, hsome⟩
    exact List.mem_map.mpr ⟨r, hr, hsome⟩
  · intro h
    rcases List.mem_map.mp h with ⟨r, hr, hsome⟩
    exact List.mem_filterMap.mpr ⟨r, hr, hsome⟩

theorem showKeys_nodup (rs : List CleanRecord) : (showKeys rs).Nodup := by
  rw [showKeys]
  exact ((sortByKey_perm (fun s => s) _).symm).nodup (List.nodup_dedup _)

/-- The aggregation sum law, in its code-accurate form: aggregate totals
sum to the window totals over the rows that carry a show key. -/
theorem aggregate_sum (rs : List CleanRecord) (f : CleanRecord → Rat) :
    ((showKeys rs).map (groupSum rs f)).sum
      = ((rs.filter (fun r => r.showName.isSome)).map f).sum := by
  rw [groupSum_keys f rs (showKeys rs) (showKeys_nodup rs)]
  have hfil : rs.filter (hasShowIn (showKeys rs))
      = rs.filter (fun r => r.showName.isSome) := by
    apply List.filter_congr
    intro r hr
    cases h : r.showName with
    | none => simp [hasShowIn, h]
    | some s =>
      simp only [hasShowIn, h, Option.isSome_some]
      exact decide_eq_true (mem_showKeys.mpr (List.mem_map.mpr ⟨r, hr, h⟩))
  rw [hfil]

/-! ## Lemmas about cleaning -/

theorem cleanRecord_eq_none {r : RawRecord} (h : parseDate r.dateText = none) :
    cleanRecord r = none := by
  simp [cleanRecord, h]

theorem cleanRecord_eq_some {r : RawRecord} {ts : Timestamp}
    (h : parseDate r.dateText = some ts) :
    cleanRecord r = some
      { date := ts
        showName := r.showName
        weekly_gross := (parseNumber (stripCurrency r.grossText)).getD 0
        performances := (parseNumber r.perfText).getD 0 } := by
  simp [cleanRecord, h]

/-- Dropping the rows whose date fails to parse before cleaning does not
change the outcome: those rows were silently discarded anyway. -/
theorem clean_drop_unparsed : ∀ rs : List RawRecord,
    clean rs = clean (rs.filter (fun x => (parseDate x.dateText).isSome))
  | [] => rfl
  | x :: t => by
    have ih := clean_drop_unparsed t
    simp only [clean] at ih ⊢
    cases h : parseDate x.dateText with
    | none =>
      simp only [List.filterMap_cons, List.filter_cons, h, cleanRecord_eq_none h,
        Option.isSome_none, Bool.false_eq_true, if_false]
      exact ih
    | some ts =>
      simp only [List.filterMap_cons, List.filter_cons, h, cleanRecord_eq_some h,
        Option.isSome_some, if_true]
      rw [ih]

/-! ## Lemmas about rounding -/

theorem roundHalfEven_eq_of_lt_half (q : Rat) (n : Int)
    (hlow : (n : Rat) ≤ q) (hr : q - n < 1 / 2) : roundHalfEven q = n := by
  have hfl : q.floor = n := by
    have h : ⌊q⌋ = n := Int.floor_eq_iff.mpr ⟨hlow, by linarith⟩
    exact h
  simp only [roundHalfEven, hfl]
  rw [if_pos hr]

theorem roundHalfEven_eq_of_half_lt (q : Rat) (n : Int)
    (hhigh : q < (n : Rat) + 1) (hr : 1 / 2 < q - n) : roundHalfEven q = n + 1 := by
  have hfl : q.floor = n := by
    have h : ⌊q⌋ = n := Int.floor_eq_iff.mpr ⟨by linarith, hhigh⟩
    exact h
  simp only [roundHalfEven, hfl]
  rw [if_neg (by linarith), if_pos hr]

/-! ## Sample data for concrete witnesses and counterexamples -/

/-- An aggregate with a strictly negative gross (legal: negative weekly
adjustments survive cleaning and sum as-is). -/
def aggNeg : Aggregate := ⟨"A", 1, -1⟩

/-- An aggregate with positive metrics. -/
def aggPos : Aggregate := ⟨"B", 2, 5⟩

/-- Four distinct shows, one with a negative gross. -/
def sampleAggs : List Aggregate := [⟨"A", 1, -5⟩, ⟨"B", 2, 1⟩, ⟨"C", 3, 2⟩, ⟨"D", 4, 3⟩]

/-- Four distinct shows with distinct positive metrics. -/
def samplePos : List Aggregate := [⟨"A", 1, 1⟩, ⟨"B", 2, 2⟩, ⟨"C", 3, 3⟩, ⟨"D", 4, 4⟩]

/-- A cleaned record whose SHOW cell was missing. -/
def sampleNoShow : CleanRecord := ⟨⟨⟨2021, 1, 1⟩, 0⟩, none, 3, 5⟩

/-! ## Claims -/

/-- Claim C1, counterexample: an Aggregate whose gross is `-1` — non-zero —
is nevertheless removed by the Bottom filter (`rank_source[... > 0]` keeps
only strictly positive values), contradicting the claim that only
zero-valued Aggregates are removed. -/
theorem C1_counterexample :
    metricVal Metric.gross aggNeg ≠ 0
    ∧ aggNeg ∈ [aggNeg]
    ∧ aggNeg ∉ rank_source [aggNeg] Metric.gross Direction.bottom := by
  decide

/-- Claim C1, amended: with direction Bottom, the Aggregates removed
before sorting are exactly those whose selected metric is `≤ 0` (zero or
negative); with direction Top nothing is removed. -/
theorem C1_bottom_removal (aggs : List Aggregate) (m : Metric) (a : Aggregate)
    (ha : a ∈ aggs) :
    (a ∉ rank_source aggs m Direction.bottom ↔ metricVal m a ≤ 0)
    ∧ rank_source aggs m Direction.top = aggs := by
  refine ⟨⟨?_, ?_⟩, rfl⟩
  · intro h
    by_contra hpos
    exact h (List.mem_filter.mpr ⟨ha, decide_eq_true (lt_of_not_le hpos)⟩)
  · intro hle hmem
    exact absurd (of_decide_eq_true (List.mem_filter.mp hmem).2) (not_lt_of_le hle)

/-- Claim C1, witness for the amended statement at a concrete input. -/
theorem C1_witness :
    aggPos ∈ [aggPos]
    ∧ ((aggPos ∉ rank_source [aggPos] Metric.gross Direction.bottom
          ↔ metricVal Metric.gross aggPos ≤ 0)
        ∧ rank_source [aggPos] Metric.gross Direction.top = [aggPos]) :=
  ⟨by decide, C1_bottom_removal [aggPos] Metric.gross aggPos (by decide)⟩

/-- Claim C2: every entry returned by a Bottom ranking has a strictly
positive selected metric value. -/
theorem C2_bottom_positive (aggs : List Aggregate) (m : Metric) (limit : Nat)
    (a : Aggregate) (ha : a ∈ rank aggs m Direction.bottom limit) :
    0 < metricVal m a := by
  rw [rank] at ha
  have h1 : a ∈ rankSorted aggs m Direction.bottom := List.take_subset _ _ ha
  rw [rankSorted] at h1
  have h2 : a ∈ rank_source aggs m Direction.bottom :=
    (sortValues_perm _ _ _).mem_iff.mp h1
  rw [rank_source] at h2
  exact of_decide_eq_true (List.mem_filter.mp h2).2

/-- Claim C2, witness at a concrete input. -/
theorem C2_witness :
    aggPos ∈ rank [aggPos] Metric.gross Direction.bottom 5
    ∧ 0 < metricVal Metric.gross aggPos :=
  ⟨by decide, C2_bottom_positive [aggPos] Metric.gross 5 aggPos (by decide)⟩

/-- Claim C4, counterexample: a cleaned record with a missing show name
counts in the window totals but belongs to no group, so the aggregate
sums (`0`) differ from the window sums (`5` performances, `3` gross). -/
theorem C4_counterexample :
    ((aggregate [sampleNoShow]).map Aggregate.total_performances).sum
        ≠ (([sampleNoShow] : List CleanRecord).map CleanRecord.performances).sum
    ∧ ((aggregate [sampleNoShow]).map Aggregate.total_gross).sum
        ≠ (([sampleNoShow] : List CleanRecord).map CleanRecord.weekly_gross).sum := by
  have hagg : aggregate [sampleNoShow] = [] := rfl
  rw [hagg]
  simp [sampleNoShow]

/-- Claim C4, amended: for every window, the aggregate totals sum to the
window sums taken over the records that carry a show key (rows with a
missing show are dropped by the group-by and do not count). -/
theorem C4_sum_law (rs : List CleanRecord) :
    ((aggregate rs).map Aggregate.total_performances).sum
        = ((rs.filter (fun r => r.showName.isSome)).map CleanRecord.performances).sum
    ∧ ((aggregate rs).map Aggregate.total_gross).sum
        = ((rs.filter (fun r => r.showName.isSome)).map CleanRecord.weekly_gross).sum := by
  constructor
  · have h : (aggregate rs).map Aggregate.total_performances
        = (showKeys rs).map (groupSum rs CleanRecord.performances) := by
      rw [aggregate, List.map_map]
      rfl
    rw [h, aggregate_sum]
  · have h : (aggregate rs).map Aggregate.total_gross
        = (showKeys rs).map (groupSum rs CleanRecord.weekly_gross) := by
      rw [aggregate, List.map_map]
      rfl
    rw [h, aggregate_sum]

/-- Claim C5: the date filter keeps exactly the records whose calendar
date lies in the inclusive range `[s, e]` (both boundaries included),
ignoring the time-of-day component, and preserves input order (the
output is a sublist of the input). -/
theorem C5_date_filter (rs : List CleanRecord) (s e : Date) :
    (filter_by_date rs s e).Sublist rs
    ∧ (∀ r, r ∈ filter_by_date rs s e
        ↔ r ∈ rs ∧ Date.leb s r.date.date = true ∧ Date.leb r.date.date e = true)
    ∧ (∀ t : Nat,
        filter_by_date (rs.map (fun r => { r with date := { r.date with tod := t } })) s e
          = (filter_by_date rs s e).map (fun r => { r with date := { r.date with tod := t } })) := by
  refine ⟨List.filter_sublist rs, ?_, ?_⟩
  · intro r
    rw [filter_by_date, List.mem_filter, Bool.and_eq_true]
  · intro t
    exact List.filter_map (fun r : CleanRecord => { r with date := { r.date with tod := t } }) rs

/-- Claim C6: the show-filter parameter feeds only the display table;
two pipeline runs that differ only in the selected show produce the same
aggregates and the same ranked entries. -/
theorem C6_show_filter_frame (rs : List CleanRecord) (s e : Date)
    (sel sel' : String) (m : Metric) (dir : Direction) (limit : Nat) :
    (pipeline rs s e sel m dir limit).aggregates
        = (pipeline rs s e sel' m dir limit).aggregates
    ∧ (pipeline rs s e sel m dir limit).ranked
        = (pipeline rs s e sel' m dir limit).ranked :=
  ⟨rfl, rfl⟩

/-- Claim C7, counterexample: `sampleAggs` has four distinct shows, none
with a zero gross, and `2 * 2 ≤ 4`; yet show "C" is in both the top-2 and
the bottom-2 by gross, because the Bottom filter also drops the
negative-gross show "A" and thereby shifts the bottom window upward. -/
theorem C7_counterexample :
    (∀ a ∈ sampleAggs, metricVal Metric.gross a ≠ 0)
    ∧ (sampleAggs.map Aggregate.showName).Nodup
    ∧ sampleAggs.length = 4
    ∧ "C" ∈ (rank sampleAggs Metric.gross Direction.top 2).map Aggregate.showName
    ∧ "C" ∈ (rank sampleAggs Metric.gross Direction.bottom 2).map Aggregate.showName := by
  decide

/-- Claim C7, amended: if all Aggregates carry pairwise-distinct show
names, every selected metric value is strictly positive, and the metric
values are pairwise distinct, then whenever `2N ≤` the number of shows,
the top-N and bottom-N show sets are disjoint. -/
theorem C7_disjoint (aggs : List Aggregate) (m : Metric) (N : Nat)
    (hshows : (aggs.map Aggregate.showName).Nodup)
    (hpos : ∀ a ∈ aggs, 0 < metricVal m a)
    (hdist : (aggs.map (metricVal m)).Nodup)
    (hN : 2 * N ≤ aggs.length) :
    ∀ s ∈ (rank aggs m Direction.top N).map Aggregate.showName,
      s ∉ (rank aggs m Direction.bottom N).map Aggregate.showName := by
  intro s hs hs'
  have hsrcb : rank_source aggs m Direction.bottom = aggs := by
    rw [rank_source]
    exact List.filter_eq_self.mpr (fun a ha => decide_eq_true (hpos a ha))
  have hrev : sortByKey (metricVal m) aggs.reverse = sortByKey (metricVal m) aggs :=
    sortByKey_eq_of_perm (metricVal m) aggs.reverse_perm
      (((aggs.reverse_perm.map (metricVal m)).symm).nodup hdist)
  set L := sortByKey (metricVal m) aggs with hL
  have hbot : rank aggs m Direction.bottom N = L.take N := by
    rw [rank, rankSorted, hsrcb]
    rfl
  have htop : rank aggs m Direction.top N = L.reverse.take N := by
    rw [rank, rankSorted, rank_source]
    show (sortValues (metricVal m) false aggs).take N = L.reverse.take N
    rw [sortValues]
    show ((sortByKey (metricVal m) aggs.reverse).reverse).take N = L.reverse.take N
    rw [hrev]
  rw [htop] at hs
  rw [hbot] at hs'
  have hlen : L.length = aggs.length := (sortByKey_perm (metricVal m) aggs).length_eq
  have hNle : N ≤ L.length - N := by omega
  have hs2 : s ∈ (L.drop (L.length - N)).map Aggregate.showName := by
    rw [List.take_reverse, List.map_reverse, List.mem_reverse] at hs
    exact hs
  have htake : L.take N = (L.take (L.length - N)).take N := by
    rw [List.take_take, Nat.min_eq_left hNle]
  have hs3 : s ∈ (L.take (L.length - N)).map Aggregate.showName := by
    rcases List.mem_map.mp hs' with ⟨a, ha, rfl⟩
    rw [htake] at ha
    exact List.mem_map.mpr ⟨a, List.take_subset _ _ ha, rfl⟩
  have hnodupL : (L.map Aggregate.showName).Nodup :=
    (((sortByKey_perm (metricVal m) aggs).map Aggregate.showName).symm).nodup hshows
  have hsplit : L.map Aggregate.showName
      = (L.take (L.length - N)).map Aggregate.showName
        ++ (L.drop (L.length - N)).map Aggregate.showName := by
    rw [← List.map_append, List.take_append_drop]
  rw [hsplit] at hnodupL
  exact (List.nodup_append.mp hnodupL).2.2 hs3 hs2

/-- Claim C7, witness for the amended statement at a concrete input. -/
theorem C7_witness :
    ((samplePos.map Aggregate.showName).Nodup
      ∧ (∀ a ∈ samplePos, 0 < metricVal Metric.gross a)
      ∧ (samplePos.map (metricVal Metric.gross)).Nodup
      ∧ 2 * 2 ≤ samplePos.length
      ∧ "D" ∈ (rank samplePos Metric.gross Direction.top 2).map Aggregate.showName)
    ∧ "D" ∉ (rank samplePos Metric.gross Direction.bottom 2).map Aggregate.showName :=
  ⟨⟨by decide, by decide, by decide, by decide, by decide⟩,
    C7_disjoint samplePos Metric.gross 2 (by decide) (by decide) (by decide) (by decide)
      "D" (by decide)⟩

/-- Claim C8: cleaning is a total function — no row can fail it.  Rows
whose date does not parse are silently dropped; a gross value that does
not parse after stripping `$` and `,` becomes exactly `0`; a
performances value that does not parse becomes exactly `0`; and every
returned record carries a successfully parsed date together with numeric
gross and performances values. -/
theorem C8_clean_total (rs : List RawRecord) (r : RawRecord) :
    clean rs = clean (rs.filter (fun x => (parseDate x.dateText).isSome))
    ∧ (parseDate r.dateText = none → cleanRecord r = none)
    ∧ (∀ ts, parseDate r.dateText = some ts →
        cleanRecord r = some
          { date := ts
            showName := r.showName
            weekly_gross := (parseNumber (stripCurrency r.grossText)).getD 0
            performances := (parseNumber r.perfText).getD 0 })
    ∧ (parseNumber (stripCurrency r.grossText) = none →
        ∀ c, cleanRecord r = some c → c.weekly_gross = 0)
    ∧ (parseNumber r.perfText = none →
        ∀ c, cleanRecord r = some c → c.performances = 0)
    ∧ (∀ c ∈ clean rs, ∃ x ∈ rs, parseDate x.dateText = some c.date) := by
  refine ⟨clean_drop_unparsed rs, fun h => cleanRecord_eq_none h,
    fun ts h => cleanRecord_eq_some h, ?_, ?_, ?_⟩
  · intro hg c hc
    cases h : parseDate r.dateText with
    | none => rw [cleanRecord_eq_none h] at hc; exact absurd hc (by simp)
    | some ts =>
      rw [cleanRecord_eq_some h] at hc
      rw [← Option.some.inj hc, hg]
      rfl
  · intro hp c hc
    cases h : parseDate r.dateText with
    | none => rw [cleanRecord_eq_none h] at hc; exact absurd hc (by simp)
    | some ts =>
      rw [cleanRecord_eq_some h] at hc
      rw [← Option.some.inj hc, hp]
      rfl
  · intro c hc
    rcases List.mem_filterMap.mp hc with ⟨x, hx, hcx⟩
    refine ⟨x, hx, ?_⟩
    cases h : parseDate x.dateText with
    | none => rw [cleanRecord_eq_none h] at hcx; exact absurd hcx (by simp)
    | some ts =>
      rw [cleanRecord_eq_some h] at hcx
      rw [← Option.some.inj hcx]

/-- A raw row whose date does not parse. -/
def rowBadDate : RawRecord := ⟨"not-a-date", some "Hamilton", "$100.00", "8"⟩

/-- A raw row with a valid date, an unparseable gross, and an
unparseable performances cell. -/
def rowNA : RawRecord := ⟨"2021-01-01", some "Wicked", "N/A", "x"⟩

/-- Claim C8, witness: the concrete behaviors at two concrete rows. -/
theorem C8_witness :
    (parseDate rowBadDate.dateText = none ∧ cleanRecord rowBadDate = none)
    ∧ (parseDate rowNA.dateText = some ⟨⟨2021, 1, 1⟩, 0⟩
        ∧ cleanRecord rowNA = some
            { date := ⟨⟨2021, 1, 1⟩, 0⟩
              showName := rowNA.showName
              weekly_gross := (parseNumber (stripCurrency rowNA.grossText)).getD 0
              performances := (parseNumber rowNA.perfText).getD 0 })
    ∧ (parseNumber (stripCurrency rowNA.grossText) = none
        ∧ ∀ c, cleanRecord rowNA = some c → c.weekly_gross = 0)
    ∧ (parseNumber rowNA.perfText = none
        ∧ ∀ c, cleanRecord rowNA = some c → c.performances = 0) :=
  ⟨⟨by decide, (C8_clean_total [] rowBadDate).2.1 (by decide)⟩,
    ⟨by decide, (C8_clean_total [] rowNA).2.2.1 ⟨⟨2021, 1, 1⟩, 0⟩ (by decide)⟩,
    ⟨by decide, (C8_clean_total [] rowNA).2.2.2.1 (by decide)⟩,
    ⟨by decide, (C8_clean_total [] rowNA).2.2.2.2.1 (by decide)⟩⟩

/-- Claim C9: `format_currency` divides the amount by the scale divisor,
renders it with thousands separators and exactly two decimal places
after the `US$` prefix, and appends the scale letter; in particular the
two cited instances hold. -/
theorem C9_format_currency :
    format_currency (1234567.89 : Rat) Scale.thousands = "US$1,234.57K"
    ∧ format_currency 0 Scale.ones = "US$0.00"
    ∧ ∀ (x : Rat) (sc : Scale),
        format_currency x sc = "US$" ++ formatFixed2 (x / sc.divisor) ++ sc.letter := by
  refine ⟨?_, ?_, fun x sc => rfl⟩
  · rw [format_currency]
    have h0 : (1234567.89 : Rat) / Scale.thousands.divisor = 1234.56789 := by
      rw [show Scale.thousands.divisor = 1000 from rfl]
      norm_num
    rw [h0]
    have h2 : roundHalfEven ((1234.56789 : Rat) * 100) = 123457 := by
      have h1 : (1234.56789 : Rat) * 100 = 123456.789 := by norm_num
      rw [h1]
      have h3 := roundHalfEven_eq_of_half_lt (123456.789 : Rat) 123456
        (by norm_num) (by norm_num)
      rw [h3]
      decide
    have hsign : ¬((1234.56789 : Rat) < 0) := by norm_num
    simp only [formatFixed2, h2, if_neg hsign]
    decide
  · rw [format_currency]
    have h0 : (0 : Rat) / Scale.ones.divisor = 0 := by norm_num
    rw [h0]
    have h2 : roundHalfEven ((0 : Rat) * 100) = 0 := by
      have h1 : (0 : Rat) * 100 = 0 := by norm_num
      rw [h1]
      exact roundHalfEven_eq_of_lt_half 0 0 (by norm_num) (by norm_num)
    have hsign : ¬((0 : Rat) < 0) := by norm_num
    simp only [formatFixed2, h2, if_neg hsign]
    decide

/-- A raw row whose SHOW cell is missing. -/
def rowNoShow : RawRecord := ⟨"2021-01-03", none, "$7.00", "2"⟩

/-- Claim C10: a record with a missing show name survives cleaning (only
date failures drop a row), is kept by the sentinel show filter and hence
shown in the display table, yet contributes to no Aggregate: prepending
it to a window leaves the aggregation — and therefore every ranking —
unchanged. -/
theorem C10_missing_show (raw : RawRecord) (hshow : raw.showName = none)
    (ts : Timestamp) (hdate : parseDate raw.dateText = some ts)
    (rs : List CleanRecord) (c : CleanRecord) (hc : c.showName = none) :
    (∃ cr, cleanRecord raw = some cr ∧ cr.showName = none)
    ∧ filter_by_show rs allShowsSentinel = rs
    ∧ aggregate (c :: rs) = aggregate rs := by
  refine ⟨⟨_, cleanRecord_eq_some hdate, hshow⟩, if_pos rfl, ?_⟩
  have hkeys : showKeys (c :: rs) = showKeys rs := by
    rw [showKeys, showKeys, List.filterMap_cons_none hc]
  have hgroup : ∀ f s, groupSum (c :: rs) f s = groupSum rs f s := by
    intro f s
    rw [groupSum, groupSum, List.filter_cons]
    simp [hc]
  rw [aggregate, aggregate, hkeys]
  exact List.map_congr_left (fun s _ => by rw [hgroup, hgroup])

/-- Claim C10, witness at a concrete row and window. -/
theorem C10_witness :
    (rowNoShow.showName = none
      ∧ parseDate rowNoShow.dateText = some ⟨⟨2021, 1, 3⟩, 0⟩
      ∧ sampleNoShow.showName = none)
    ∧ ((∃ cr, cleanRecord rowNoShow = some cr ∧ cr.showName = none)
      ∧ filter_by_show [sampleNoShow] allShowsSentinel = [sampleNoShow]
      ∧ aggregate (sampleNoShow :: [sampleNoShow]) = aggregate [sampleNoShow]) :=
  ⟨⟨rfl, by decide, rfl⟩,
    C10_missing_show rowNoShow rfl ⟨⟨2021, 1, 3⟩, 0⟩ (by decide) [sampleNoShow]
      sampleNoShow rfl⟩

end Broadway
